import Mathlib

/-!
Verification of the SER library (SVD Embedding Regression, Distributed SVD,
Federated SVD) against its design specification.

The Python sources `ser/svd_embedding_regression.py`, `ser/distributed_svd.py`
and `ser/federated_svd.py` are embedded shallowly:

* data partitions are lists of row vectors `Fin p → ℚ` (a dense matrix, rows =
  samples), or Mathlib `Matrix` values where matrix algebra is involved;
* machine floats are modelled by `ℚ` (the claims under study are exact
  algebraic identities "up to floating-point error");
* the dense linear-algebra collaborators (`scipy.linalg.svd`,
  `np.linalg.eigh`, `np.linalg.lstsq`) enter as hypotheses stating their
  documented contracts, never as computations;
* Python-level failures (TypeError from `None` arithmetic, ValueError raised
  explicitly, exceptions raised inside library calls) are modelled by an
  explicit error type `PyErr` and `Except`/product results.
-/

open Matrix

/-- The kinds of Python-level failure the embedded code paths can produce.
`notFittedValueError` is the error the code raises explicitly with
`raise ValueError("Model has not been fitted yet.")`; `typeErrorNoneOperand`
is the interpreter's TypeError from using the unset `None` sentinel as an
arithmetic operand; `valueErrorEmptyVstack` is `np.vstack([])`'s ValueError;
`linAlgErrorIncompatible` is `np.linalg.lstsq`'s shape-mismatch error;
`zeroDivisionError` is Python's integer `0/0` error. -/
inductive PyErr where
  | notFittedValueError : PyErr
  | typeErrorNoneOperand : PyErr
  | valueErrorEmptyVstack : PyErr
  | linAlgErrorIncompatible : PyErr
  | zeroDivisionError : PyErr
deriving DecidableEq, Repr

/-! ### Federated statistics (`ser/federated_svd.py`, lines 46-106)

A data partition is a list of rows, each row a vector `Fin p → ℚ`.
`FederatedSVD._compute_local_statistics` returns the triple
(`n_samples`, `local_sum`, `local_cov`); each component is embedded as its
own function below. -/

/-- `n_samples = X.shape[0]` of `_compute_local_statistics`. -/
def fed_n_samples {p : ℕ} (X : List (Fin p → ℚ)) : ℕ := X.length

/-- `local_sum = np.sum(X, axis=0)` of `_compute_local_statistics`. -/
def fed_local_sum {p : ℕ} (X : List (Fin p → ℚ)) : Fin p → ℚ :=
  fun a => (X.map (fun r => r a)).sum

/-- `local_cov = X.T @ X` of `_compute_local_statistics` (the raw, uncentered
scatter matrix). -/
def fed_local_cov {p : ℕ} (X : List (Fin p → ℚ)) : Matrix (Fin p) (Fin p) ℚ :=
  Matrix.of fun a b => (X.map (fun r => r a * r b)).sum

/-- `total_samples = sum(stats['n_samples'] ...)` of `_aggregate_statistics`. -/
def fed_total_samples {p : ℕ} (parts : List (List (Fin p → ℚ))) : ℕ :=
  (parts.map fed_n_samples).sum

/-- `global_sum = sum(stats['local_sum'] ...)` of `_aggregate_statistics`. -/
def fed_global_sum {p : ℕ} (parts : List (List (Fin p → ℚ))) : Fin p → ℚ :=
  (parts.map fed_local_sum).sum

/-- `global_mean = global_sum / total_samples` of `_aggregate_statistics`. -/
def fed_global_mean {p : ℕ} (parts : List (List (Fin p → ℚ))) : Fin p → ℚ :=
  fun a => fed_global_sum parts a / (fed_total_samples parts : ℚ)

/-- `global_cov = sum(stats['local_cov'] ...) - total_samples *
np.outer(global_mean, global_mean)` of `_aggregate_statistics`. -/
def fed_global_cov {p : ℕ} (parts : List (List (Fin p → ℚ))) :
    Matrix (Fin p) (Fin p) ℚ :=
  (parts.map fed_local_cov).sum -
    Matrix.of fun a b =>
      (fed_total_samples parts : ℚ) * (fed_global_mean parts a * fed_global_mean parts b)

/-- The row-wise concatenation of all partitions (`np.vstack`). -/
def pooledRows {p : ℕ} (parts : List (List (Fin p → ℚ))) : List (Fin p → ℚ) :=
  parts.flatten

/-- The column mean of a list of rows (the mean of the pooled data, computed
in a single pass). -/
def rowsMean {p : ℕ} (X : List (Fin p → ℚ)) : Fin p → ℚ :=
  fun a => fed_local_sum X a / (X.length : ℚ)

/-- The centered scatter matrix `Xc.T @ Xc` of a list of rows centered by a
given mean vector. -/
def centeredScatter {p : ℕ} (X : List (Fin p → ℚ)) (μ : Fin p → ℚ) :
    Matrix (Fin p) (Fin p) ℚ :=
  fed_local_cov (X.map (fun r => r - μ))

/-! ### Distributed mean (`ser/distributed_svd.py`, lines 57-62) -/

/-- `self.mean_ = sum(np.sum(X, axis=0) for X in X_partitions) / total_samples`
of `DistributedSVD.fit`. -/
def dist_mean {p : ℕ} (parts : List (List (Fin p → ℚ))) : Fin p → ℚ :=
  fun a => ((parts.map (fun X => fed_local_sum X)).sum : Fin p → ℚ) a /
    ((((parts.map (fun X => X.length)).sum : ℕ)) : ℚ)

/-- A concrete two-partition data set over one feature, used to instantiate
the aggregation theorems. -/
def twoParts : List (List (Fin 1 → ℚ)) := [[fun _ => 1], [fun _ => 3]]

/-! ### Eigenvalue post-processing (`ser/federated_svd.py`, lines 135-148)

`np.linalg.eigh` returns eigenvalues in implementation-defined order; the code
sorts them ascending with `np.argsort` and reverses (`[::-1]`), clamps
negatives with `np.maximum(eigenvalues, 0)`, takes square roots, and finally
truncates with the Python slice `[:n_components]`.  The square root is the
unique nonnegative root, so the singular-value list is captured relationally
by `IsSqrtListOf`. -/

/-- `idx = np.argsort(eigenvalues)[::-1]; eigenvalues = eigenvalues[idx]`:
sort ascending, then reverse. -/
def sortEigsDesc (l : List ℚ) : List ℚ :=
  (List.insertionSort (· ≤ ·) l).reverse

/-- The descending eigenvalue list after the clamp
`np.maximum(eigenvalues, 0)`. -/
def clampedEigsDesc (l : List ℚ) : List ℚ :=
  (sortEigsDesc l).map (fun x => max x 0)

/-- `s` is the elementwise nonnegative square root of `t`
(`np.sqrt` on a nonnegative array). -/
def IsSqrtListOf (s t : List ℚ) : Prop :=
  List.Forall₂ (fun a b => 0 ≤ a ∧ a ^ 2 = b) s t

/-- Python slice `l[:k]` for `k ≥ 0`: silently keeps at most `k` elements. -/
def pySlice {α : Type} (l : List α) (k : ℕ) : List α := l.take k

/-! ### Model state and query methods

Each estimator's mutable state is a record of `Option` fields, all `none`
after `__init__`.  `transform` and `explained_variance_ratio` are embedded
with their exact control flow: `explained_variance_ratio` checks `s_ is None`
and raises ValueError explicitly, while `transform` immediately evaluates
`X - self.mean_` (and `X_centered @ self.Vt_.T`), so on an unfitted model the
interpreter raises TypeError from the `None` operand — there is no explicit
fitted-state check in `transform`. -/

/-- State of `SVDEmbeddingRegression` (`svd_embedding_regression.py`,
lines 37-44). -/
structure SVDEmbeddingRegressionState (p : ℕ) where
  n_components : Option ℕ
  U_ : Option (List (List ℚ))
  s_ : Option (List ℚ)
  Vt_ : Option (List (Fin p → ℚ))
  weights_ : Option (List ℚ)
  mean_X_ : Option (Fin p → ℚ)
  mean_y_ : Option ℚ

/-- State of `DistributedSVD` (`distributed_svd.py`, lines 35-40). -/
structure DistributedSVDState (p : ℕ) where
  n_components : Option ℕ
  U_ : Option (List (List ℚ))
  s_ : Option (List ℚ)
  Vt_ : Option (List (Fin p → ℚ))
  mean_ : Option (Fin p → ℚ)

/-- State of `FederatedSVD` (`federated_svd.py`, lines 38-44). -/
structure FederatedSVDState (p : ℕ) where
  n_components : Option ℕ
  n_iterations : ℕ
  U_ : Option (List (List ℚ))
  s_ : Option (List ℚ)
  Vt_ : Option (List (Fin p → ℚ))
  mean_ : Option (Fin p → ℚ)

/-- `SVDEmbeddingRegression.__init__`. -/
def SVDEmbeddingRegression_init (p : ℕ) (k : Option ℕ) :
    SVDEmbeddingRegressionState p :=
  ⟨k, none, none, none, none, none, none⟩

/-- `DistributedSVD.__init__`. -/
def DistributedSVD_init (p : ℕ) (k : Option ℕ) : DistributedSVDState p :=
  ⟨k, none, none, none, none⟩

/-- `FederatedSVD.__init__`. -/
def FederatedSVD_init (p : ℕ) (k : Option ℕ) (iters : ℕ) : FederatedSVDState p :=
  ⟨k, iters, none, none, none, none⟩

/-- Dot product of two feature vectors. -/
def dotF {p : ℕ} (u v : Fin p → ℚ) : ℚ := ∑ j, u j * v j

/-- The shared body of the three `transform` methods on given fitted values:
`(X - mean) @ Vt.T`, with `Vt` held as its list of rows. -/
def transform_body {p : ℕ} (μ : Fin p → ℚ) (Vt : List (Fin p → ℚ))
    (X : List (Fin p → ℚ)) : List (List ℚ) :=
  X.map (fun r => Vt.map (fun v => dotF (r - μ) v))

/-- `SVDEmbeddingRegression.transform` (lines 94-114): `X - self.mean_X_` is
evaluated first (TypeError if unfitted), then `@ self.Vt_.T`. -/
def ser_transform {p : ℕ} (m : SVDEmbeddingRegressionState p)
    (X : List (Fin p → ℚ)) : Except PyErr (List (List ℚ)) :=
  match m.mean_X_ with
  | none => Except.error PyErr.typeErrorNoneOperand
  | some μ =>
    match m.Vt_ with
    | none => Except.error PyErr.typeErrorNoneOperand
    | some Vt => Except.ok (transform_body μ Vt X)

/-- `DistributedSVD.transform` (lines 103-123). -/
def dist_transform {p : ℕ} (m : DistributedSVDState p)
    (X : List (Fin p → ℚ)) : Except PyErr (List (List ℚ)) :=
  match m.mean_ with
  | none => Except.error PyErr.typeErrorNoneOperand
  | some μ =>
    match m.Vt_ with
    | none => Except.error PyErr.typeErrorNoneOperand
    | some Vt => Except.ok (transform_body μ Vt X)

/-- `FederatedSVD.transform` (lines 164-184). -/
def fed_transform {p : ℕ} (m : FederatedSVDState p)
    (X : List (Fin p → ℚ)) : Except PyErr (List (List ℚ)) :=
  match m.mean_ with
  | none => Except.error PyErr.typeErrorNoneOperand
  | some μ =>
    match m.Vt_ with
    | none => Except.error PyErr.typeErrorNoneOperand
    | some Vt => Except.ok (transform_body μ Vt X)

/-- `explained_variance_ratio` of `DistributedSVD` (lines 166-182) and
`FederatedSVD` (lines 227-243), identical in both: an explicit
`if self.s_ is None: raise ValueError(...)` guard, then squared singular
values divided by their sum. -/
def explained_variance_frac (s_ : Option (List ℚ)) : Except PyErr (List ℚ) :=
  match s_ with
  | none => Except.error PyErr.notFittedValueError
  | some s =>
    let variance := s.map (fun x => x ^ 2)
    let total_variance := variance.sum
    Except.ok (variance.map (fun v => v / total_variance))

/-- The fixed record returned by `FederatedSVD.get_privacy_budget`
(lines 245-259). -/
structure PrivacyInfo where
  method : String
  data_sharing : String
  raw_data_shared : Bool
  privacy_level : String
deriving DecidableEq, Repr

/-- `FederatedSVD.get_privacy_budget`: returns a literal dictionary, touching
no model state. -/
def get_privacy_budget {p : ℕ} (_m : FederatedSVDState p) : PrivacyInfo :=
  { method := ("Federated Learning")
    data_sharing := ("Only aggregated statistics (mean, covariance)")
    raw_data_shared := false
    privacy_level := ("High - raw data never leaves local nodes") }

/-! ### Fit control flow (validation and assignment order) -/

/-- Shape-level embedding of `SVDEmbeddingRegression.fit` (lines 46-92).
The method performs no input validation of its own: the economy SVD of the
centered `n × p` data yields `r = min n p` components, the Python slices
`[:k]` silently keep `min k r` of them, and the only failure point is
`np.linalg.lstsq`, which raises when the row counts of `X_reduced` (`n`) and
`y_centered` (`yRows`) differ.  For `n = 0` the real outcome is decided
inside the numeric libraries (NaN mean from `np.mean` of an empty axis,
library-dependent SVD handling); the embedding is therefore only used at
`n > 0`.  Returns the number of retained components. -/
def ser_fit_shapes (n p yRows : ℕ) (k : Option ℕ) : Except PyErr ℕ :=
  let r := min n p
  let kept := match k with
    | none => r
    | some k => min k r
  if yRows ≠ n then Except.error PyErr.linAlgErrorIncompatible
  else Except.ok kept

/-- Control-flow embedding of `DistributedSVD.fit` (lines 57-101), tracking
which model fields are assigned along each path.  The SVD collaborator's
outputs on the success path are passed in as `s_glob`, `Vt_glob`, `U_glob`
(the claim under study concerns only the assignment discipline, not the
numeric factorization).  Paths, in source order:
* an empty partition list makes `sum(...) / total_samples` the integer
  division `0 / 0`, raising ZeroDivisionError before `self.mean_` is
  assigned;
* otherwise `self.mean_` is assigned; when the total row count is zero,
  numpy turns the array division into NaNs with a RuntimeWarning instead of
  raising, so execution continues (the junk value is modelled by `ℚ`
  division by zero inside `dist_mean`);
* partitions with zero rows are skipped in the local-SVD loop; if every
  partition has zero rows the list of local factors is empty and
  `np.vstack([])` raises ValueError — after `mean_` was already assigned;
* otherwise `s_`, `Vt_` (truncated by slicing when `n_components` is set)
  and `U_` are assigned and fit succeeds. -/
def dist_fit_run {p : ℕ} (m : DistributedSVDState p)
    (parts : List (List (Fin p → ℚ)))
    (s_glob : List ℚ) (Vt_glob : List (Fin p → ℚ)) (U_glob : List (List ℚ)) :
    DistributedSVDState p × Option PyErr :=
  if parts = [] then (m, some PyErr.zeroDivisionError)
  else
    let m1 := { m with mean_ := some (dist_mean parts) }
    if parts.all (fun X => X.length = 0) then
      (m1, some PyErr.valueErrorEmptyVstack)
    else
      let kept := match m.n_components with
        | none => s_glob
        | some k => pySlice s_glob k
      let keptVt := match m.n_components with
        | none => Vt_glob
        | some k => pySlice Vt_glob k
      ({ m1 with s_ := some kept, Vt_ := some keptVt, U_ := some U_glob }, none)

/-! ### Matrix-level transform / inverse_transform
(`ser/distributed_svd.py`, lines 103-123 and 145-164; `FederatedSVD` has the
identical bodies at lines 164-184 and 206-225) -/

/-- Row-wise broadcast of the stored mean vector (numpy broadcasting of
`self.mean_` against an `n × p` array). -/
def meanRowsM (n : ℕ) {p : ℕ} (μ : Fin p → ℚ) : Matrix (Fin n) (Fin p) ℚ :=
  Matrix.of fun _ j => μ j

/-- `transform`: `X_transformed = (X - self.mean_) @ self.Vt_.T`. -/
def transformM {n p k : ℕ} (μ : Fin p → ℚ) (Vt : Matrix (Fin k) (Fin p) ℚ)
    (X : Matrix (Fin n) (Fin p) ℚ) : Matrix (Fin n) (Fin k) ℚ :=
  (X - meanRowsM n μ) * Vtᵀ

/-- `inverse_transform`: `X = X_transformed @ self.Vt_ + self.mean_`. -/
def inverse_transformM {n p k : ℕ} (μ : Fin p → ℚ)
    (Vt : Matrix (Fin k) (Fin p) ℚ) (Z : Matrix (Fin n) (Fin k) ℚ) :
    Matrix (Fin n) (Fin p) ℚ :=
  Z * Vt + meanRowsM n μ

/-- The first `k` rows of a matrix: the slice `V[:k, :]` used by the
truncation step of `fit`. -/
def firstRows {p q : ℕ} (V : Matrix (Fin p) (Fin q) ℚ) (k : ℕ) (h : k ≤ p) :
    Matrix (Fin k) (Fin q) ℚ :=
  V.submatrix (Fin.castLE h) id

/-- Squared Frobenius norm, the reconstruction-error functional. -/
def frobSq {n m : ℕ} (A : Matrix (Fin n) (Fin m) ℚ) : ℚ :=
  ∑ i, ∑ j, (A i j) ^ 2

/-- Concrete right-singular-vector matrix with orthonormal rows, for
instantiating the round-trip theorem. -/
def Vw : Matrix (Fin 2) (Fin 2) ℚ := !![3/5, 4/5; -4/5, 3/5]

/-- Concrete stored mean for the round-trip instance. -/
def muW : Fin 2 → ℚ := ![1, 2]

/-- Concrete data matrix for the round-trip instance. -/
def Xw : Matrix (Fin 1) (Fin 2) ℚ := !![3, 7]

/-! ### The single-partition `DistributedSVD.fit` pipeline (`distributed_svd.py`,
lines 57-101, specialized to `X_partitions = [X]`)

`scipy.linalg.svd(A, full_matrices=False)` on a tall `n × p` matrix returns
`U (n × p)`, `s (p)`, `Vt (p × p)` with `A = U @ diag(s) @ Vt`, orthonormal
columns of `U`, orthonormal rows of `Vt`, and `s` nonnegative descending.
That documented contract is the predicate `IsEconSVD`; the pipeline theorems
quantify over any collaborator outputs satisfying it. -/

/-- The economy-size SVD contract of the collaborator (`scipy.linalg.svd`
with `full_matrices=False` on a matrix with at least as many rows as
columns): factorization, orthonormal `U`-columns, orthonormal `Vt`-rows,
nonnegative singular values in descending order. -/
def IsEconSVD {n p : ℕ} (A U : Matrix (Fin n) (Fin p) ℚ) (s : Fin p → ℚ)
    (Vt : Matrix (Fin p) (Fin p) ℚ) : Prop :=
  A = U * Matrix.diagonal s * Vt ∧ Uᵀ * U = 1 ∧ Vt * Vtᵀ = 1 ∧
    (∀ i, 0 ≤ s i) ∧ (∀ i j : Fin p, i ≤ j → s j ≤ s i)

/-- The rows of a matrix as a partition (bridges the matrix view and the
list-of-rows view of a data set). -/
def matrixRows {m p : ℕ} (X : Matrix (Fin m) (Fin p) ℚ) : List (Fin p → ℚ) :=
  List.ofFn (fun i => X i)

/-- `X - self.mean_` (numpy row broadcast), the centering step of `fit`. -/
def centerM {m p : ℕ} (X : Matrix (Fin m) (Fin p) ℚ) (μ : Fin p → ℚ) :
    Matrix (Fin m) (Fin p) ℚ :=
  X - meanRowsM m μ

/-- With a single partition, the stacked block
`np.vstack([np.diag(s_local) @ Vt_local])` of `fit` is just
`diag(s) @ Vt`. -/
def combined_Vt {p : ℕ} (s : Fin p → ℚ) (Vt : Matrix (Fin p) (Fin p) ℚ) :
    Matrix (Fin p) (Fin p) ℚ :=
  Matrix.diagonal s * Vt

/-- Following the specification's words: the pair `(sTrunc, VtTrunc)` "matches
a direct truncated SVD of that same matrix (after mean-centering)" — i.e. it
is the `k`-component truncation of some economy SVD of the centered matrix.
This is the refinement target the pipeline output is compared against. -/
def IsDirectTruncatedSVD {m p : ℕ} (Xc : Matrix (Fin m) (Fin p) ℚ) (k : ℕ)
    (hk : k ≤ p) (sTrunc : Fin k → ℚ) (VtTrunc : Matrix (Fin k) (Fin p) ℚ) :
    Prop :=
  ∃ (U : Matrix (Fin m) (Fin p) ℚ) (s : Fin p → ℚ)
    (Vt : Matrix (Fin p) (Fin p) ℚ),
      IsEconSVD Xc U s Vt ∧ sTrunc = (fun i => s (Fin.castLE hk i)) ∧
        VtTrunc = firstRows Vt k hk

/-- Concrete 4×2 data matrix (columns sum to zero) for instantiating the
single-partition pipeline theorem; its rows are
`(1, 11/2), (5, 5/2), (-5, -5/2), (-1, -11/2)`. -/
def Xs : Matrix (Fin 4) (Fin 2) ℚ := Matrix.of fun i j =>
  if i.val = 0 then (if j.val = 0 then 1 else 11/2)
  else if i.val = 1 then (if j.val = 0 then 5 else 5/2)
  else if i.val = 2 then (if j.val = 0 then -5 else -5/2)
  else (if j.val = 0 then -1 else -11/2)

/-- Concrete left factor with orthonormal columns for `Xs`; its rows are
`(1/2, 1/2), (1/2, -1/2), (-1/2, 1/2), (-1/2, -1/2)`. -/
def Us : Matrix (Fin 4) (Fin 2) ℚ := Matrix.of fun i j =>
  if i.val = 0 then (if j.val = 0 then 1/2 else 1/2)
  else if i.val = 1 then (if j.val = 0 then 1/2 else -1/2)
  else if i.val = 2 then (if j.val = 0 then -1/2 else 1/2)
  else (if j.val = 0 then -1/2 else -1/2)

/-- Concrete singular values of `Xs`. -/
def sVals : Fin 2 → ℚ := ![10, 5]

/-! ### Helper lemmas on list sums -/

/-- Applying a pointwise sum of row vectors at a coordinate. -/
theorem list_sum_apply {p : ℕ} (l : List (Fin p → ℚ)) (a : Fin p) :
    l.sum a = (l.map (fun f => f a)).sum := by
  induction l with
  | nil => rfl
  | cons f rest ih => simp [ih]

/-- Summing a mapped flattened list equals summing partition-wise. -/
theorem sum_map_flatten {α : Type} (parts : List (List α)) (f : α → ℚ) :
    ((parts.flatten).map f).sum = (parts.map (fun X => (X.map f).sum)).sum := by
  induction parts with
  | nil => rfl
  | cons X rest ih =>
    simp only [List.flatten_cons, List.map_append, List.sum_append, List.map_cons,
      List.sum_cons, ih]

/-- The pooled row count is the sum of partition row counts. -/
theorem pooledRows_length {p : ℕ} (parts : List (List (Fin p → ℚ))) :
    (pooledRows parts).length = fed_total_samples parts := by
  unfold pooledRows fed_total_samples fed_n_samples
  induction parts with
  | nil => rfl
  | cons X rest ih => simp [ih]

/-- The pooled column sums are the aggregated per-partition column sums. -/
theorem pooledRows_sum {p : ℕ} (parts : List (List (Fin p → ℚ))) :
    fed_local_sum (pooledRows parts) = fed_global_sum parts := by
  funext a
  unfold fed_local_sum fed_global_sum pooledRows
  rw [sum_map_flatten, list_sum_apply, List.map_map]
  rfl

/-- Expansion of the centered cross-product sum of a list of rows. -/
theorem centered_cross_sum {p : ℕ} (X : List (Fin p → ℚ)) (μ : Fin p → ℚ)
    (a b : Fin p) :
    (X.map (fun r => (r a - μ a) * (r b - μ b))).sum =
      (X.map (fun r => r a * r b)).sum - μ b * (X.map (fun r => r a)).sum
        - μ a * (X.map (fun r => r b)).sum + X.length * (μ a * μ b) := by
  induction X with
  | nil => simp
  | cons r rest ih =>
    simp only [List.map_cons, List.sum_cons, ih, List.length_cons]
    push_cast
    ring

/-- Entry of a list sum of matrices. -/
theorem matrix_list_sum_apply {p : ℕ} (l : List (Matrix (Fin p) (Fin p) ℚ))
    (a b : Fin p) : l.sum a b = (l.map (fun M => M a b)).sum := by
  induction l with
  | nil => rfl
  | cons M rest ih => simp [ih]

/-- C1: summing per-partition raw scatter matrices and subtracting
`total_count · outer(global_mean, global_mean)` (the aggregation performed by
`FederatedSVD._aggregate_statistics` on the statistics of
`_compute_local_statistics`) yields exactly the centered scatter matrix
`Xc.T @ Xc` of the row-wise concatenation of all partitions centered by the
pooled mean. -/
theorem fed_global_cov_eq_pooled_centered_scatter {p : ℕ}
    (parts : List (List (Fin p → ℚ))) (h : 0 < fed_total_samples parts) :
    fed_global_cov parts =
      centeredScatter (pooledRows parts) (fed_global_mean parts) := by
  have hN : ((fed_total_samples parts : ℚ)) ≠ 0 := by exact_mod_cast h.ne'
  ext a b
  have e1 : fed_global_cov parts a b =
      ((pooledRows parts).map (fun r => r a * r b)).sum -
        (fed_total_samples parts : ℚ) *
          (fed_global_mean parts a * fed_global_mean parts b) := by
    unfold fed_global_cov pooledRows
    simp only [Matrix.sub_apply, Matrix.of_apply]
    rw [matrix_list_sum_apply, List.map_map, sum_map_flatten]
    rfl
  have e2 : centeredScatter (pooledRows parts) (fed_global_mean parts) a b =
      ((pooledRows parts).map
        (fun r => (r a - fed_global_mean parts a) *
          (r b - fed_global_mean parts b))).sum := by
    unfold centeredScatter fed_local_cov
    rw [Matrix.of_apply, List.map_map]
    rfl
  rw [e1, e2, centered_cross_sum]
  have ha : ((pooledRows parts).map (fun r => r a)).sum =
      fed_global_sum parts a := congrFun (pooledRows_sum parts) a
  have hb : ((pooledRows parts).map (fun r => r b)).sum =
      fed_global_sum parts b := congrFun (pooledRows_sum parts) b
  rw [ha, hb, pooledRows_length]
  unfold fed_global_mean
  field_simp
  ring

/-- Witness for C1 at a concrete two-partition input. -/
theorem fed_global_cov_eq_pooled_centered_scatter_witness :
    0 < fed_total_samples twoParts ∧
      fed_global_cov twoParts =
        centeredScatter (pooledRows twoParts) (fed_global_mean twoParts) :=
  ⟨by decide, fed_global_cov_eq_pooled_centered_scatter twoParts (by decide)⟩

/-- C2: the mean stored by `DistributedSVD.fit` (sum of per-partition column
sums divided by the total row count) is exactly the single-pass mean of the
row-wise concatenation of all partitions. -/
theorem dist_mean_eq_pooled_mean {p : ℕ}
    (parts : List (List (Fin p → ℚ))) (_h : 0 < fed_total_samples parts) :
    dist_mean parts = rowsMean (pooledRows parts) := by
  funext a
  unfold dist_mean rowsMean
  rw [pooledRows_length, congrFun (pooledRows_sum parts) a]
  rfl

/-- Witness for C2 at a concrete two-partition input. -/
theorem dist_mean_eq_pooled_mean_witness :
    0 < fed_total_samples twoParts ∧
      dist_mean twoParts = rowsMean (pooledRows twoParts) :=
  ⟨by decide, dist_mean_eq_pooled_mean twoParts (by decide)⟩

/-- Each element on the left of a `Forall₂` is related to some element on the
right. -/
theorem forall₂_exists_mem {α β : Type} {R : α → β → Prop} :
    ∀ {s : List α} {t : List β}, List.Forall₂ R s t → ∀ {a}, a ∈ s → ∃ b ∈ t, R a b := by
  intro s t h
  induction h with
  | nil => intro a ha; cases ha
  | cons hR hrest ih =>
    intro a ha
    rcases List.mem_cons.mp ha with rfl | ha'
    · exact ⟨_, List.mem_cons_self _ _, hR⟩
    · obtain ⟨b, hb, hRb⟩ := ih ha'
      exact ⟨b, List.mem_cons_of_mem _ hb, hRb⟩

/-- Transfer a `Pairwise` property backward along a `Forall₂` relation. -/
theorem pairwise_of_forall₂ {α β : Type} {R : α → β → Prop} {P : β → β → Prop}
    {Q : α → α → Prop}
    (himp : ∀ a b a' b', R a b → R a' b' → P b b' → Q a a') :
    ∀ {s : List α} {t : List β}, List.Forall₂ R s t → t.Pairwise P → s.Pairwise Q := by
  intro s t h
  induction h with
  | nil => intro _; exact List.Pairwise.nil
  | cons hR hrest ih =>
    intro hp
    rcases List.pairwise_cons.mp hp with ⟨hhead, htail⟩
    refine List.Pairwise.cons ?_ (ih htail)
    intro a' ha'
    obtain ⟨b', hb', hRb'⟩ := forall₂_exists_mem hrest ha'
    exact himp _ _ _ _ hR hRb' (hhead b' hb')

/-- The clamped, descending-sorted eigenvalue list is sorted descending. -/
theorem clampedEigsDesc_sorted (l : List ℚ) :
    (clampedEigsDesc l).Sorted (· ≥ ·) := by
  unfold clampedEigsDesc sortEigsDesc
  rw [List.Sorted, List.pairwise_map, List.pairwise_reverse]
  have h := List.sorted_insertionSort (· ≤ ·) l
  exact h.imp (fun hab => max_le_max hab le_rfl)

/-- Every clamped eigenvalue is nonnegative. -/
theorem clampedEigsDesc_nonneg (l : List ℚ) :
    ∀ x ∈ clampedEigsDesc l, 0 ≤ x := by
  intro x hx
  unfold clampedEigsDesc at hx
  obtain ⟨y, _, rfl⟩ := List.mem_map.mp hx
  exact le_max_right y 0

/-- C3: after `fit`, stored singular values are nonnegative and sorted
descending.  First conjunct: `FederatedSVD.fit` sorts eigenpairs descending,
clamps negative eigenvalues to zero, takes nonnegative square roots and
truncates, so any singular-value list standing in the square-root relation to
the processed eigenvalues is nonnegative and descending.  Second conjunct: for
`DistributedSVD.fit` and `SVDEmbeddingRegression.fit`, slicing a descending
nonnegative singular-value list returned by the SVD collaborator preserves
both properties. -/
theorem singular_values_nonneg_sorted :
    (∀ (evs s : List ℚ) (k : ℕ), IsSqrtListOf s (clampedEigsDesc evs) →
      (pySlice s k).Sorted (· ≥ ·) ∧ ∀ x ∈ pySlice s k, 0 ≤ x) ∧
    (∀ (s : List ℚ) (k : ℕ), s.Sorted (· ≥ ·) → (∀ x ∈ s, 0 ≤ x) →
      (pySlice s k).Sorted (· ≥ ·) ∧ ∀ x ∈ pySlice s k, 0 ≤ x) := by
  have takePart : ∀ (s : List ℚ) (k : ℕ), s.Sorted (· ≥ ·) → (∀ x ∈ s, 0 ≤ x) →
      (pySlice s k).Sorted (· ≥ ·) ∧ ∀ x ∈ pySlice s k, 0 ≤ x := by
    intro s k hs hn
    constructor
    · exact List.Pairwise.sublist (List.take_sublist k s) hs
    · intro x hx
      exact hn x (List.take_subset k s hx)
  refine ⟨?_, takePart⟩
  intro evs s k hsq
  apply takePart
  · refine pairwise_of_forall₂ ?_ hsq (clampedEigsDesc_sorted evs)
    rintro a b a' b' ⟨ha, hab⟩ ⟨ha', hab'⟩ hbb'
    have hsqle : a' ^ 2 ≤ a ^ 2 := by rw [hab, hab']; exact hbb'
    exact (pow_le_pow_iff_left₀ ha' ha (by norm_num)).mp hsqle
  · intro x hx
    obtain ⟨b, _, hR⟩ := forall₂_exists_mem hsq hx
    exact hR.1

/-- Witness for C3 at concrete eigenvalues `[1, 4, -2]` with singular values
`[2, 1, 0]` and truncation to two components. -/
theorem singular_values_nonneg_sorted_witness :
    IsSqrtListOf [2, 1, 0] (clampedEigsDesc [1, 4, -2]) ∧
      ((pySlice ([2, 1, 0] : List ℚ) 2).Sorted (· ≥ ·) ∧
        ∀ x ∈ pySlice ([2, 1, 0] : List ℚ) 2, 0 ≤ x) := by
  have hclamp : clampedEigsDesc [1, 4, -2] = [4, 1, 0] := by decide
  have hsq : IsSqrtListOf [2, 1, 0] (clampedEigsDesc [1, 4, -2]) := by
    unfold IsSqrtListOf
    rw [hclamp]
    refine List.Forall₂.cons ⟨by norm_num, by norm_num⟩ ?_
    refine List.Forall₂.cons ⟨by norm_num, by norm_num⟩ ?_
    exact List.Forall₂.cons ⟨by norm_num, by norm_num⟩ List.Forall₂.nil
  exact ⟨hsq, singular_values_nonneg_sorted.1 [1, 4, -2] [2, 1, 0] 2 hsq⟩

/-- Dividing each summand divides the sum. -/
theorem sum_map_div (l : List ℚ) (c : ℚ) :
    (l.map (fun v => v / c)).sum = l.sum / c := by
  induction l with
  | nil => simp
  | cons v rest ih => simp [ih, add_div]

/-- C6: `explained_variance_ratio()` returns the squared stored singular
values divided by their sum; before `fit` (`s_ = None`) it raises the
explicit ValueError; after a fit whose singular values are not all zero,
every entry lies in `[0, 1]` and the entries sum to 1 (hence in particular
when `n_components` equals full rank). -/
theorem explained_variance_frac_spec :
    explained_variance_frac none = Except.error PyErr.notFittedValueError ∧
    ∀ (s : List ℚ), (∃ x ∈ s, x ≠ 0) →
      ∃ v, explained_variance_frac (some s) = Except.ok v ∧
        (∀ y ∈ v, 0 ≤ y ∧ y ≤ 1) ∧ v.sum = 1 := by
  refine ⟨rfl, ?_⟩
  rintro s ⟨x, hx, hx0⟩
  have hvar_nonneg : ∀ y ∈ s.map (fun z => z ^ 2), 0 ≤ y := by
    rintro y hy
    obtain ⟨z, _, rfl⟩ := List.mem_map.mp hy
    positivity
  have hT : 0 < (s.map (fun z => z ^ 2)).sum := by
    have hmem : x ^ 2 ∈ s.map (fun z => z ^ 2) := List.mem_map.mpr ⟨x, hx, rfl⟩
    have hle : x ^ 2 ≤ (s.map (fun z => z ^ 2)).sum :=
      List.single_le_sum hvar_nonneg _ hmem
    have hxpos : 0 < x ^ 2 := by positivity
    linarith
  refine ⟨_, rfl, ?_, ?_⟩
  · intro y hy
    obtain ⟨v, hv, rfl⟩ := List.mem_map.mp hy
    constructor
    · exact div_nonneg (hvar_nonneg v hv) hT.le
    · rw [div_le_one hT]
      exact List.single_le_sum hvar_nonneg _ hv
  · rw [sum_map_div, div_self hT.ne']

/-- Witness for C6: unfitted call errors; on `s_ = [2, 1]` the ratios are in
`[0, 1]` and sum to 1. -/
theorem explained_variance_frac_spec_witness :
    (∃ x ∈ ([2, 1] : List ℚ), x ≠ 0) ∧
      ∃ v, explained_variance_frac (some ([2, 1] : List ℚ)) = Except.ok v ∧
        (∀ y ∈ v, 0 ≤ y ∧ y ≤ 1) ∧ v.sum = 1 := by
  have hx : ∃ x ∈ ([2, 1] : List ℚ), x ≠ 0 := ⟨2, by norm_num⟩
  exact ⟨hx, explained_variance_frac_spec.2 [2, 1] hx⟩

/-- C7 counterexample: on every unfitted estimator, `transform` fails with
the interpreter's TypeError from the unset `None` mean — the incidental
arithmetic fault — and not with the explicit fitted-state ValueError that the
claim requires (the check that `explained_variance_ratio` performs). -/
theorem transform_unfitted_typeerror_counterexample :
    ser_transform (SVDEmbeddingRegression_init 2 (some 5)) [fun _ => 1] =
        Except.error PyErr.typeErrorNoneOperand ∧
      dist_transform (DistributedSVD_init 2 (some 5)) [fun _ => 1] =
        Except.error PyErr.typeErrorNoneOperand ∧
      fed_transform (FederatedSVD_init 2 (some 5) 10) [fun _ => 1] =
        Except.error PyErr.typeErrorNoneOperand ∧
      PyErr.typeErrorNoneOperand ≠ PyErr.notFittedValueError :=
  ⟨rfl, rfl, rfl, by decide⟩

/-- C7 (amended): calling `transform` before `fit` does fail on every
estimator, but through the interpreter's TypeError raised when `X -
self.mean_` hits the unset `None` sentinel, not through an explicit
unfitted-model check. -/
theorem transform_unfitted_raises_typeerror :
    ∀ (p : ℕ) (k : Option ℕ) (iters : ℕ) (X : List (Fin p → ℚ)),
      ser_transform (SVDEmbeddingRegression_init p k) X =
          Except.error PyErr.typeErrorNoneOperand ∧
        dist_transform (DistributedSVD_init p k) X =
          Except.error PyErr.typeErrorNoneOperand ∧
        fed_transform (FederatedSVD_init p k iters) X =
          Except.error PyErr.typeErrorNoneOperand :=
  fun _ _ _ _ => ⟨rfl, rfl, rfl⟩

/-- C8 counterexample: on a 2×2 `X` with matching `y` and
`n_components = 5 > min(2, 2) = 2`, `SVDEmbeddingRegression.fit` neither
fails nor records the excess: it returns successfully having silently kept
only 2 components (Python slice semantics). -/
theorem ser_fit_silent_clamp_counterexample :
    ser_fit_shapes 2 2 2 (some 5) = Except.ok 2 ∧
      ∀ e, ser_fit_shapes 2 2 2 (some 5) ≠ Except.error e := by
  refine ⟨rfl, ?_⟩
  intro e h
  simp [ser_fit_shapes] at h

/-- C8 (amended): `SVDEmbeddingRegression.fit` performs no explicit input
validation: a `y`/`X` row-count mismatch fails only inside the
`np.linalg.lstsq` call; `n_components` exceeding `min(n, p)` is silently
clamped to `min(n, p)` components by Python slice semantics (the general
slice law is the third conjunct); an empty `X` is not explicitly rejected
(its outcome is left to the numeric libraries). -/
theorem ser_fit_no_explicit_validation :
    (∀ (n p yRows : ℕ) (k : Option ℕ), yRows ≠ n →
      ser_fit_shapes n p yRows k = Except.error PyErr.linAlgErrorIncompatible) ∧
    (∀ (n p k : ℕ), 0 < n →
      ser_fit_shapes n p n (some k) = Except.ok (min k (min n p))) ∧
    (∀ (s : List ℚ) (k : ℕ), (pySlice s k).length = min k s.length) := by
  refine ⟨?_, ?_, ?_⟩
  · intro n p yRows k h
    simp [ser_fit_shapes, h]
  · intro n p k _
    simp [ser_fit_shapes]
  · intro s k
    simp [pySlice]

/-- Witness for the amended C8 theorem at concrete shapes. -/
theorem ser_fit_no_explicit_validation_witness :
    ((3 : ℕ) ≠ 2 ∧
        ser_fit_shapes 2 4 3 (some 2) = Except.error PyErr.linAlgErrorIncompatible) ∧
      (0 < 2 ∧ ser_fit_shapes 2 4 2 (some 5) = Except.ok (min 5 (min 2 4))) :=
  ⟨⟨by decide, ser_fit_no_explicit_validation.1 2 4 3 (some 2) (by decide)⟩,
    ⟨by decide, ser_fit_no_explicit_validation.2.1 2 4 5 (by decide)⟩⟩

/-- C9 counterexample: `DistributedSVD.fit` on a single zero-row partition
assigns `self.mean_` (a junk value: numpy produces NaNs from the zero-count
division) and then raises from `np.vstack([])`, leaving the model partially
written — `mean_` is set while `s_`, `Vt_`, `U_` are not, contradicting
"fit fully fails leaving model state unset". -/
theorem dist_fit_not_atomic_counterexample :
    (dist_fit_run (DistributedSVD_init 1 (some 5)) [[]] [] [] []).2 =
        some PyErr.valueErrorEmptyVstack ∧
      (dist_fit_run (DistributedSVD_init 1 (some 5)) [[]] [] [] []).1.mean_ ≠
        none := by
  constructor
  · rfl
  · intro h
    simp [dist_fit_run, DistributedSVD_init] at h

/-- C9 (amended): a failing `fit` can leave the model partially written.
Whenever the partition list is nonempty but every partition has zero rows,
`DistributedSVD.fit` assigns `mean_` and then fails at the `np.vstack` step,
leaving `mean_` set while `s_`, `Vt_` and `U_` remain unset (only an empty
partition list fails before any assignment, via ZeroDivisionError). -/
theorem dist_fit_partial_write {p : ℕ} (k : Option ℕ)
    (parts : List (List (Fin p → ℚ)))
    (s_glob : List ℚ) (Vt_glob : List (Fin p → ℚ)) (U_glob : List (List ℚ))
    (hne : parts ≠ []) (hempty : ∀ X ∈ parts, X.length = 0) :
    (dist_fit_run (DistributedSVD_init p k) parts s_glob Vt_glob U_glob).2 =
        some PyErr.valueErrorEmptyVstack ∧
      (dist_fit_run (DistributedSVD_init p k) parts s_glob Vt_glob U_glob).1 =
        { n_components := k, U_ := none, s_ := none, Vt_ := none,
          mean_ := some (dist_mean parts) } := by
  have hcond : (parts.all fun X => X.length = 0) = true := by
    rw [List.all_eq_true]
    intro X hX
    exact decide_eq_true (hempty X hX)
  unfold dist_fit_run
  rw [if_neg hne, if_pos hcond]
  exact ⟨rfl, rfl⟩

/-- Witness for the amended C9 theorem at a single zero-row partition. -/
theorem dist_fit_partial_write_witness :
    (([[]] : List (List (Fin 1 → ℚ))) ≠ [] ∧
        ∀ X ∈ ([[]] : List (List (Fin 1 → ℚ))), X.length = 0) ∧
      (dist_fit_run (DistributedSVD_init 1 (some 3)) [[]] [] [] []).2 =
        some PyErr.valueErrorEmptyVstack :=
  ⟨⟨by decide, by decide⟩,
    (dist_fit_partial_write (some 3) [[]] [] [] [] (by decide) (by decide)).1⟩

/-- C10: `FederatedSVD.get_privacy_budget()` returns the same fixed record —
method name, data-sharing description, `raw_data_shared = False`, qualitative
privacy level — on every model state; in particular it succeeds on the
freshly initialized (unfitted) model, unlike the other query methods. -/
theorem get_privacy_budget_constant :
    ∀ (p : ℕ) (m : FederatedSVDState p),
      get_privacy_budget m =
          { method := ("Federated Learning")
            data_sharing := ("Only aggregated statistics (mean, covariance)")
            raw_data_shared := false
            privacy_level := ("High - raw data never leaves local nodes") } ∧
        get_privacy_budget m = get_privacy_budget (FederatedSVD_init p none 10) :=
  fun _ _ => ⟨rfl, rfl⟩

/-- The concrete factor `Vw` has orthonormal rows. -/
theorem Vw_orthonormal : Vw * Vwᵀ = 1 := by
  ext i j
  rw [Matrix.mul_apply, Fin.sum_univ_two]
  fin_cases i <;> fin_cases j <;>
    · simp [Vw, Matrix.transpose_apply, Matrix.one_apply]
      norm_num

/-- Squared Frobenius norm as a trace. -/
theorem frobSq_eq_trace {n m : ℕ} (A : Matrix (Fin n) (Fin m) ℚ) :
    frobSq A = Matrix.trace (A * Aᵀ) := by
  unfold frobSq Matrix.trace
  simp [Matrix.diag, Matrix.mul_apply, Matrix.transpose_apply, sq]

/-- The first `k` rows of a row-orthonormal matrix are row-orthonormal. -/
theorem firstRows_orthonormal {p q : ℕ} (V : Matrix (Fin p) (Fin q) ℚ)
    (hV : V * Vᵀ = 1) {k : ℕ} (hk : k ≤ p) :
    firstRows V k hk * (firstRows V k hk)ᵀ = 1 := by
  ext i j
  have h := Matrix.ext_iff.mpr hV (Fin.castLE hk i) (Fin.castLE hk j)
  simp only [Matrix.mul_apply, firstRows, Matrix.submatrix_apply,
    Matrix.transpose_apply, id] at h ⊢
  rw [h]
  simp [Matrix.one_apply, Fin.castLE_inj]

/-- Reconstruction error against a row-orthonormal factor, in closed form. -/
theorem recon_error_eq {n p k : ℕ} (Xc : Matrix (Fin n) (Fin p) ℚ)
    (W : Matrix (Fin k) (Fin p) ℚ) (hW : W * Wᵀ = 1) :
    frobSq (Xc * Wᵀ * W - Xc) = frobSq Xc - frobSq (Xc * Wᵀ) := by
  have hWW : ∀ (Z : Matrix (Fin k) (Fin n) ℚ), W * (Wᵀ * Z) = Z := by
    intro Z
    rw [← Matrix.mul_assoc, hW, Matrix.one_mul]
  have hexp : (Xc * Wᵀ * W - Xc) * (Xc * Wᵀ * W - Xc)ᵀ =
      Xc * Xcᵀ - (Xc * Wᵀ) * (Xc * Wᵀ)ᵀ := by
    rw [Matrix.transpose_sub, Matrix.transpose_mul, Matrix.transpose_mul,
      Matrix.transpose_transpose, Matrix.sub_mul, Matrix.mul_sub, Matrix.mul_sub]
    simp only [Matrix.mul_assoc]
    rw [hWW (W * Xcᵀ)]
    abel
  rw [frobSq_eq_trace, frobSq_eq_trace, frobSq_eq_trace, hexp, Matrix.trace_sub]

/-- Composing `transform` and `inverse_transform` misses `X` by the projected
centered residual. -/
theorem recon_diff {n p k : ℕ} (μ : Fin p → ℚ) (W : Matrix (Fin k) (Fin p) ℚ)
    (X : Matrix (Fin n) (Fin p) ℚ) :
    inverse_transformM μ W (transformM μ W X) - X =
      (X - meanRowsM n μ) * Wᵀ * W - (X - meanRowsM n μ) := by
  unfold inverse_transformM transformM
  abel

/-- Projecting on more retained rows captures at least as much squared
Frobenius mass. -/
theorem frobSq_mul_firstRows_transpose_mono {n p q : ℕ}
    (Xc : Matrix (Fin n) (Fin q) ℚ) (V : Matrix (Fin p) (Fin q) ℚ)
    {k k' : ℕ} (hkk' : k ≤ k') (hk' : k' ≤ p) :
    frobSq (Xc * (firstRows V k (hkk'.trans hk'))ᵀ) ≤
      frobSq (Xc * (firstRows V k' hk')ᵀ) := by
  have hgen : ∀ (m : ℕ) (hm : m ≤ p),
      frobSq (Xc * (firstRows V m hm)ᵀ) =
        ∑ j ∈ Finset.range m,
          (if hj : j < p then ∑ i, (∑ t, Xc i t * V ⟨j, hj⟩ t) ^ 2 else 0) := by
    intro m hm
    unfold frobSq
    rw [Finset.sum_comm,
      ← Fin.sum_univ_eq_sum_range
        (fun j => if hj : j < p then ∑ i, (∑ t, Xc i t * V ⟨j, hj⟩ t) ^ 2 else 0) m]
    apply Finset.sum_congr rfl
    intro j _
    rw [dif_pos (lt_of_lt_of_le j.isLt hm)]
    apply Finset.sum_congr rfl
    intro i _
    congr 1
  rw [hgen k (hkk'.trans hk'), hgen k' hk']
  apply Finset.sum_le_sum_of_subset_of_nonneg (Finset.range_subset.mpr hkk')
  intro j _ _
  split_ifs
  · positivity
  · exact le_refl 0

/-- C5: with the fitted right-singular-vector matrix full-rank and
row-orthonormal, `inverse_transform (transform X)` returns `X` exactly for
every `X` with the fitted feature count (first conjunct); truncating to fewer
components reconstructs approximately, with squared Frobenius error
non-increasing as `n_components` grows toward full rank (second conjunct). -/
theorem dist_roundtrip_exact_and_monotone {n p : ℕ} (μ : Fin p → ℚ)
    (V : Matrix (Fin p) (Fin p) ℚ) (hV : V * Vᵀ = 1)
    (X : Matrix (Fin n) (Fin p) ℚ) {k k' : ℕ} (hkk' : k ≤ k') (hk' : k' ≤ p) :
    inverse_transformM μ V (transformM μ V X) = X ∧
      frobSq (inverse_transformM μ (firstRows V k' hk')
          (transformM μ (firstRows V k' hk') X) - X) ≤
        frobSq (inverse_transformM μ (firstRows V k (hkk'.trans hk'))
          (transformM μ (firstRows V k (hkk'.trans hk')) X) - X) := by
  constructor
  · have hVtV : Vᵀ * V = 1 := Matrix.mul_eq_one_comm.mp hV
    unfold inverse_transformM transformM
    rw [Matrix.mul_assoc, hVtV, Matrix.mul_one, sub_add_cancel]
  · rw [recon_diff, recon_diff,
      recon_error_eq _ _ (firstRows_orthonormal V hV hk'),
      recon_error_eq _ _ (firstRows_orthonormal V hV (hkk'.trans hk'))]
    have hmono := frobSq_mul_firstRows_transpose_mono (X - meanRowsM n μ) V hkk' hk'
    linarith

/-- Witness for C5 at a concrete orthogonal 2×2 factor, mean and data row,
with truncations to 1 and 2 components. -/
theorem dist_roundtrip_exact_and_monotone_witness :
    (Vw * Vwᵀ = 1) ∧
      (inverse_transformM muW Vw (transformM muW Vw Xw) = Xw ∧
        frobSq (inverse_transformM muW (firstRows Vw 2 (le_refl 2))
            (transformM muW (firstRows Vw 2 (le_refl 2)) Xw) - Xw) ≤
          frobSq (inverse_transformM muW (firstRows Vw 1 (by norm_num))
            (transformM muW (firstRows Vw 1 (by norm_num)) Xw) - Xw)) := by
  have hV : Vw * Vwᵀ = 1 := Vw_orthonormal
  exact ⟨hV, dist_roundtrip_exact_and_monotone muW Vw hV Xw
    (by norm_num) (le_refl 2)⟩

/-- The Gram matrix of an economy SVD factorization. -/
theorem econ_svd_gram {n p : ℕ} {A U : Matrix (Fin n) (Fin p) ℚ}
    {s : Fin p → ℚ} {Vt : Matrix (Fin p) (Fin p) ℚ}
    (h : IsEconSVD A U s Vt) :
    Aᵀ * A = Vtᵀ * Matrix.diagonal (fun i => s i ^ 2) * Vt := by
  obtain ⟨hA, hU, _, _, _⟩ := h
  have hdd : Matrix.diagonal s * Matrix.diagonal s =
      Matrix.diagonal (fun i => s i ^ 2) := by
    rw [Matrix.diagonal_mul_diagonal]
    refine congrArg Matrix.diagonal (funext fun i => ?_)
    show s i * s i = s i ^ 2
    ring
  rw [hA, Matrix.transpose_mul, Matrix.transpose_mul, Matrix.diagonal_transpose]
  have hUU : Uᵀ * (U * (Matrix.diagonal s * Vt)) = Matrix.diagonal s * Vt := by
    rw [← Matrix.mul_assoc, hU, Matrix.one_mul]
  simp only [Matrix.mul_assoc]
  rw [hUU, ← Matrix.mul_assoc (Matrix.diagonal s) (Matrix.diagonal s) Vt, hdd]

/-- Conjugating by an orthogonal matrix preserves the characteristic
polynomial. -/
theorem orth_conj_charpoly {m : ℕ} (W A : Matrix (Fin m) (Fin m) ℚ)
    (hW : W * Wᵀ = 1) : (W * A * Wᵀ).charpoly = A.charpoly := by
  have hmapW : (W.map Polynomial.C) * (Wᵀ.map Polynomial.C) = 1 := by
    rw [← Matrix.map_mul, hW]
    exact Matrix.map_one _ (map_zero _) (map_one _)
  have key : Matrix.charmatrix (W * A * Wᵀ) =
      (W.map Polynomial.C) * Matrix.charmatrix A * (Wᵀ.map Polynomial.C) := by
    unfold Matrix.charmatrix
    rw [Matrix.mul_sub, Matrix.sub_mul]
    congr 1
    · have hcomm := (Matrix.scalar_commute (n := Fin m)
        (Polynomial.X : Polynomial ℚ)
        (fun r' => Commute.all _ _) (W.map Polynomial.C)).eq
      rw [← hcomm, Matrix.mul_assoc, hmapW, Matrix.mul_one]
    · simp only [RingHom.mapMatrix_apply]
      rw [Matrix.map_mul, Matrix.map_mul]
  unfold Matrix.charpoly
  rw [key, Matrix.det_mul, Matrix.det_mul]
  have hdet : (W.map Polynomial.C).det * (Wᵀ.map Polynomial.C).det = 1 := by
    rw [← Matrix.det_mul, hmapW, Matrix.det_one]
  calc (W.map Polynomial.C).det * (Matrix.charmatrix A).det *
        (Wᵀ.map Polynomial.C).det
      = (Matrix.charmatrix A).det *
          ((W.map Polynomial.C).det * (Wᵀ.map Polynomial.C).det) := by ring
    _ = (Matrix.charmatrix A).det := by rw [hdet, mul_one]

/-- The characteristic polynomial of a diagonal matrix. -/
theorem charpoly_diagonal_eq {m : ℕ} (d : Fin m → ℚ) :
    (Matrix.diagonal d).charpoly =
      ∏ i, (Polynomial.X - Polynomial.C (d i)) := by
  rw [Matrix.charpoly_of_upperTriangular _ (Matrix.blockTriangular_diagonal d)]
  apply Finset.prod_congr rfl
  intro i _
  rw [Matrix.diagonal_apply_eq]

/-- Equal products of linear factors force equal root multisets. -/
theorem multiset_eq_of_prod_X_sub_C {m : ℕ} (a b : Fin m → ℚ)
    (h : ∏ i, (Polynomial.X - Polynomial.C (a i)) =
      ∏ i, (Polynomial.X - Polynomial.C (b i))) :
    Multiset.map a Finset.univ.val = Multiset.map b Finset.univ.val := by
  have ha := Polynomial.roots_multiset_prod_X_sub_C
    (Multiset.map a Finset.univ.val)
  have hb := Polynomial.roots_multiset_prod_X_sub_C
    (Multiset.map b Finset.univ.val)
  have h' : ((Multiset.map a Finset.univ.val).map
        (fun x => Polynomial.X - Polynomial.C x)).prod =
      ((Multiset.map b Finset.univ.val).map
        (fun x => Polynomial.X - Polynomial.C x)).prod := by
    rw [Multiset.map_map, Multiset.map_map]
    calc (Multiset.map ((fun x => Polynomial.X - Polynomial.C x) ∘ a)
          Finset.univ.val).prod
        = ∏ i, (Polynomial.X - Polynomial.C (a i)) :=
          (Finset.prod_eq_multiset_prod _ _).symm
      _ = ∏ i, (Polynomial.X - Polynomial.C (b i)) := h
      _ = (Multiset.map ((fun x => Polynomial.X - Polynomial.C x) ∘ b)
          Finset.univ.val).prod := Finset.prod_eq_multiset_prod _ _
  rw [← ha, ← hb, h']

/-- Two descending functions on `Fin m` with the same value multiset are
equal. -/
theorem desc_funs_eq_of_multiset_eq {m : ℕ} (a b : Fin m → ℚ)
    (ha : ∀ i j : Fin m, i ≤ j → a j ≤ a i)
    (hb : ∀ i j : Fin m, i ≤ j → b j ≤ b i)
    (h : Multiset.map a Finset.univ.val = Multiset.map b Finset.univ.val) :
    a = b := by
  haveI : IsAntisymm ℚ (· ≥ ·) := ⟨fun x y h1 h2 => le_antisymm h2 h1⟩
  have hperm : List.Perm (List.ofFn a) (List.ofFn b) := by
    rw [← Multiset.coe_eq_coe, ← Fin.univ_val_map, ← Fin.univ_val_map]
    exact h
  have hsa : (List.ofFn a).Sorted (· ≥ ·) := by
    rw [List.Sorted, List.pairwise_ofFn]
    intro i j hij
    exact ha i j hij.le
  have hsb : (List.ofFn b).Sorted (· ≥ ·) := by
    rw [List.Sorted, List.pairwise_ofFn]
    intro i j hij
    exact hb i j hij.le
  exact List.ofFn_injective (List.eq_of_perm_of_sorted hperm hsa hsb)

/-- Singular-value uniqueness: any two economy SVDs of the same matrix carry
the same singular values (this is why a "second SVD pass" cannot change
them). -/
theorem econ_svd_singular_values_unique {n p : ℕ}
    {A U1 U2 : Matrix (Fin n) (Fin p) ℚ} {s1 s2 : Fin p → ℚ}
    {Vt1 Vt2 : Matrix (Fin p) (Fin p) ℚ}
    (h1 : IsEconSVD A U1 s1 Vt1) (h2 : IsEconSVD A U2 s2 Vt2) : s1 = s2 := by
  have hg1 := econ_svd_gram h1
  have hg2 := econ_svd_gram h2
  obtain ⟨_, _, hV1, hs1n, hs1d⟩ := h1
  obtain ⟨_, _, hV2, hs2n, hs2d⟩ := h2
  have hV1' : Vt1ᵀ * Vt1 = 1 := Matrix.mul_eq_one_comm.mp hV1
  have hV2' : Vt2ᵀ * Vt2 = 1 := Matrix.mul_eq_one_comm.mp hV2
  have hEq : Vt1ᵀ * Matrix.diagonal (fun i => s1 i ^ 2) * Vt1 =
      Vt2ᵀ * Matrix.diagonal (fun i => s2 i ^ 2) * Vt2 := by
    rw [← hg1, ← hg2]
  have hsandwich : ∀ (D : Matrix (Fin p) (Fin p) ℚ)
      (Vt : Matrix (Fin p) (Fin p) ℚ), Vt * Vtᵀ = 1 →
      Vt * (Vtᵀ * D * Vt) * Vtᵀ = D := by
    intro D Vt hVt
    calc Vt * (Vtᵀ * D * Vt) * Vtᵀ
        = (Vt * Vtᵀ) * D * (Vt * Vtᵀ) := by
          simp only [Matrix.mul_assoc]
      _ = D := by rw [hVt, Matrix.one_mul, Matrix.mul_one]
  have hD : Matrix.diagonal (fun i => s1 i ^ 2) =
      (Vt1 * Vt2ᵀ) * Matrix.diagonal (fun i => s2 i ^ 2) * (Vt1 * Vt2ᵀ)ᵀ := by
    have step := hsandwich (Matrix.diagonal (fun i => s1 i ^ 2)) Vt1 hV1
    rw [hEq] at step
    rw [← step, Matrix.transpose_mul, Matrix.transpose_transpose]
    simp only [Matrix.mul_assoc]
  have hWorth : (Vt1 * Vt2ᵀ) * (Vt1 * Vt2ᵀ)ᵀ = 1 := by
    rw [Matrix.transpose_mul, Matrix.transpose_transpose]
    have hinner : Vt2ᵀ * (Vt2 * Vt1ᵀ) = Vt1ᵀ := by
      rw [← Matrix.mul_assoc, hV2', Matrix.one_mul]
    rw [Matrix.mul_assoc, hinner, hV1]
  have hchar : (Matrix.diagonal (fun i => s1 i ^ 2)).charpoly =
      (Matrix.diagonal (fun i => s2 i ^ 2)).charpoly := by
    rw [hD, orth_conj_charpoly _ _ hWorth]
  have hprod : ∏ i, (Polynomial.X - Polynomial.C (s1 i ^ 2)) =
      ∏ i, (Polynomial.X - Polynomial.C (s2 i ^ 2)) := by
    rw [← charpoly_diagonal_eq, ← charpoly_diagonal_eq]
    exact hchar
  have hmult := multiset_eq_of_prod_X_sub_C _ _ hprod
  have hsq : (fun i => s1 i ^ 2) = fun i => s2 i ^ 2 := by
    refine desc_funs_eq_of_multiset_eq _ _ ?_ ?_ hmult
    · intro i j hij
      exact pow_le_pow_left₀ (hs1n j) (hs1d i j hij) 2
    · intro i j hij
      exact pow_le_pow_left₀ (hs2n j) (hs2d i j hij) 2
  funext i
  have h2i : s1 i ^ 2 = s2 i ^ 2 := congrFun hsq i
  have hle1 : s1 i ≤ s2 i :=
    (pow_le_pow_iff_left₀ (hs1n i) (hs2n i) two_ne_zero).mp h2i.le
  have hle2 : s2 i ≤ s1 i :=
    (pow_le_pow_iff_left₀ (hs2n i) (hs1n i) two_ne_zero).mp h2i.ge
  exact le_antisymm hle1 hle2

/-- With a single partition the distributed mean is the partition's own
column mean. -/
theorem dist_mean_singleton {p : ℕ} (Y : List (Fin p → ℚ)) :
    dist_mean [Y] = rowsMean Y := by
  funext a
  unfold dist_mean rowsMean
  simp

/-- C4: on a single partition `[X]`, `DistributedSVD.fit` behaves as a plain
truncated SVD of the partition after centering by its own mean.  For any
collaborator outputs satisfying the SVD contract on the two calls that `fit`
makes (on the centered data, and on the stacked block `diag(s) @ Vt`):
the code's global mean equals the partition's own column mean (first
conjunct); the second SVD pass reproduces exactly the singular values of the
direct SVD (second conjunct, by singular-value uniqueness); the retained
singular-value list `s_ = s_global[:k]` has exactly `n_components = k`
entries whenever `k ≤ p` (third conjunct, matching `len(s_) == 5` for a
`(50, 10)` partition with `n_components = 5`); and the truncated output
`(s_, Vt_)` is itself a direct truncated SVD of the centered partition
(fourth conjunct). -/
theorem dist_single_partition_refines_direct_svd {m p : ℕ}
    (X : Matrix (Fin m) (Fin p) ℚ) {k : ℕ} (hk : k ≤ p)
    {U : Matrix (Fin m) (Fin p) ℚ} {s : Fin p → ℚ}
    {Vt : Matrix (Fin p) (Fin p) ℚ}
    {U2 : Matrix (Fin p) (Fin p) ℚ} {s2 : Fin p → ℚ}
    {Vt2 : Matrix (Fin p) (Fin p) ℚ}
    (h1 : IsEconSVD (centerM X (dist_mean [matrixRows X])) U s Vt)
    (h2 : IsEconSVD (combined_Vt s Vt) U2 s2 Vt2) :
    dist_mean [matrixRows X] = rowsMean (matrixRows X) ∧
      s2 = s ∧
      (pySlice (List.ofFn s2) k).length = k ∧
      IsDirectTruncatedSVD (centerM X (dist_mean [matrixRows X])) k hk
        (fun i => s2 (Fin.castLE hk i)) (firstRows Vt2 k hk) := by
  obtain ⟨hA1, hU1, hV1, hs1n, hs1d⟩ := h1
  obtain ⟨hA2, hU2, hV2, hs2n, hs2d⟩ := h2
  have hId : IsEconSVD (combined_Vt s Vt) 1 s Vt := by
    refine ⟨?_, ?_, hV1, hs1n, hs1d⟩
    · rw [Matrix.one_mul]
      rfl
    · rw [Matrix.transpose_one, Matrix.one_mul]
  have hs2s : s2 = s :=
    econ_svd_singular_values_unique ⟨hA2, hU2, hV2, hs2n, hs2d⟩ hId
  refine ⟨dist_mean_singleton _, hs2s, ?_, ?_⟩
  · simp [pySlice]
    omega
  · refine ⟨U * U2, s2, Vt2, ⟨?_, ?_, hV2, hs2n, hs2d⟩, rfl, rfl⟩
    · have hcomb : Matrix.diagonal s * Vt = U2 * Matrix.diagonal s2 * Vt2 := hA2
      rw [hA1]
      calc U * Matrix.diagonal s * Vt
          = U * (Matrix.diagonal s * Vt) := by rw [Matrix.mul_assoc]
        _ = U * (U2 * Matrix.diagonal s2 * Vt2) := by rw [hcomb]
        _ = U * U2 * Matrix.diagonal s2 * Vt2 := by
            simp only [Matrix.mul_assoc]
    · have hmid : U2ᵀ * ((Uᵀ * U) * U2) = 1 := by
        rw [hU1, Matrix.one_mul]
        exact hU2
      calc (U * U2)ᵀ * (U * U2) = U2ᵀ * ((Uᵀ * U) * U2) := by
            rw [Matrix.transpose_mul]
            simp only [Matrix.mul_assoc]
        _ = 1 := hmid

/-- Witness for C4 at the concrete 4×2 partition `Xs` with direct SVD
`(Us, sVals, Vw)`, second-pass SVD `(1, sVals, Vw)` of the stacked block,
and truncation to one component. -/
theorem dist_single_partition_refines_direct_svd_witness :
    (IsEconSVD (centerM Xs (dist_mean [matrixRows Xs])) Us sVals Vw ∧
      IsEconSVD (combined_Vt sVals Vw) 1 sVals Vw) ∧
      (dist_mean [matrixRows Xs] = rowsMean (matrixRows Xs) ∧
        sVals = sVals ∧
        (pySlice (List.ofFn sVals) 1).length = 1 ∧
        IsDirectTruncatedSVD (centerM Xs (dist_mean [matrixRows Xs])) 1
          (by norm_num) (fun i => sVals (Fin.castLE (by norm_num) i))
          (firstRows Vw 1 (by norm_num))) := by
  have hsnn : ∀ i, 0 ≤ sVals i := by
    intro i
    fin_cases i <;> norm_num [sVals]
  have hsdesc : ∀ i j : Fin 2, i ≤ j → sVals j ≤ sVals i := by
    intro i j hij
    fin_cases i <;> fin_cases j <;>
      first
        | exact absurd hij (by decide)
        | norm_num [sVals]
  have hmean0 : dist_mean [matrixRows Xs] = fun _ => (0 : ℚ) := by
    rw [dist_mean_singleton]
    funext a
    unfold rowsMean matrixRows fed_local_sum
    fin_cases a <;>
      norm_num [List.map_ofFn, List.sum_ofFn, Fin.sum_univ_four,
        Function.comp, Xs]
  have hcenter : centerM Xs (dist_mean [matrixRows Xs]) = Xs := by
    rw [hmean0]
    unfold centerM meanRowsM
    ext i j
    simp [Matrix.sub_apply]
  have hXU : Xs = Us * Matrix.diagonal sVals * Vw := by
    ext i j
    rw [Matrix.mul_apply, Fin.sum_univ_two]
    simp only [Matrix.mul_diagonal]
    fin_cases i <;> fin_cases j <;>
      norm_num [Xs, Us, sVals, Vw]
  have hUtU : Usᵀ * Us = 1 := by
    ext i j
    rw [Matrix.mul_apply, Fin.sum_univ_four]
    fin_cases i <;> fin_cases j <;>
      simp +decide [Us, Matrix.transpose_apply, Matrix.one_apply] <;>
      norm_num
  have h1 : IsEconSVD (centerM Xs (dist_mean [matrixRows Xs])) Us sVals Vw := by
    rw [hcenter]
    exact ⟨hXU, hUtU, Vw_orthonormal, hsnn, hsdesc⟩
  have h2 : IsEconSVD (combined_Vt sVals Vw) 1 sVals Vw := by
    refine ⟨?_, ?_, Vw_orthonormal, hsnn, hsdesc⟩
    · rw [Matrix.one_mul]
      rfl
    · rw [Matrix.transpose_one, Matrix.one_mul]
  exact ⟨⟨h1, h2⟩,
    dist_single_partition_refines_direct_svd Xs (by norm_num) h1 h2⟩
